import Mathlib

/-
Verification of the flodgatt Redis connection core
(`src/response/redis/connection.rs`) against its natural-language
specification.  The Rust code is shallowly embedded: byte buffers are
`List Nat`, the two TCP sockets are replaced by explicit read outcomes
and write logs, and the stateful methods become pure functions that
return the updated connection state.
-/

set_option autoImplicit false

namespace Flodgatt

/-- Bytes of an ASCII string literal, used for the wire-protocol tokens
that appear literally in the source (`+PONG\r\n`, `*2\r\n$4\r\nauth\r\n$`, ...).
All literals involved are ASCII, so `Char.toNat` agrees with their UTF-8
bytes. -/
def strBytes (s : String) : List Nat := s.data.map Char.toNat

/-- The fixed read block size, `const BLOCK: usize = 4096 * 2` in `poll_redis`. -/
def BLOCK : Nat := 4096 * 2

/-- Embedding of `futures::Async` as returned by `poll_redis`.  The source
returns `Poll<Option<usize>, Error>` but every branch of `poll_redis`
returns the `Ok` constructor, so the error layer is omitted. -/
inductive Async (α : Type) where
  | ready (value : α)
  | notReady
deriving DecidableEq, Repr

/-- The error enum `RedisConnErr` from the `err` module.  Modelled from the
spec: the module itself is not among the provided sources; the
specification lists its kinds (ConnectFailure, IncorrectPassword,
MissingPassword, NotRedis, InvalidReply, IoError).  Byte lists stand for
the lossily-decoded strings the source stores. -/
inductive RedisConnErr where
  | withAddr (addr : String)
  | incorrectPassword (pass : List Nat)
  | missingPassword
  | notRedis (addr : String)
  | invalidRedisReply (reply : List Nat)
deriving DecidableEq, Repr

/-- Modelled from the spec: the bounded LRU map (`lru::LruCache` in the
source) is an external crate, not part of this repository; §4.2 of the
specification gives its contract.  Entries are kept most-recently-used
first. -/
structure LruCache (K V : Type) where
  capacity : Nat
  entries : List (K × V)
deriving DecidableEq, Repr

def LruCache.new {K V : Type} (cap : Nat) : LruCache K V := ⟨cap, []⟩

def LruCache.size {K V : Type} (c : LruCache K V) : Nat := c.entries.length

/-- `get` promotes a hit to the most-recently-used position and returns
its value; a miss leaves the cache unchanged. -/
def LruCache.get {K V : Type} [DecidableEq K] (c : LruCache K V) (k : K) :
    Option V × LruCache K V :=
  match c.entries.find? (fun e => e.1 == k) with
  | some e => (some e.2, ⟨c.capacity, e :: c.entries.filter (fun e2 => !(e2.1 == k))⟩)
  | none => (none, c)

/-- `put` inserts or updates a key at the most-recently-used position,
evicting the least-recently-used entry when the capacity is exceeded. -/
def LruCache.put {K V : Type} [DecidableEq K] (c : LruCache K V) (k : K) (v : V) :
    LruCache K V :=
  let entries := (k, v) :: c.entries.filter (fun e => !(e.1 == k))
  if c.capacity < entries.length then ⟨c.capacity, entries.dropLast⟩
  else ⟨c.capacity, entries⟩

/-- Keys of the cache are pairwise distinct (holds for every cache built
by `get`/`put` from an empty one). -/
def LruCache.keysNodup {K V : Type} (c : LruCache K V) : Prop :=
  (c.entries.map Prod.fst).Nodup

/-- Insert a list of key-value pairs in order (leftmost first). -/
def fillCache {K V : Type} [DecidableEq K] (c : LruCache K V) (kvs : List (K × V)) :
    LruCache K V :=
  kvs.foldl (fun acc kv => acc.put kv.1 kv.2) c

/-- The configuration fields of `config::Redis` that this core reads
(`redis_cfg_types.rs`): host, port, optional password, optional
namespace.  The password is kept as its byte sequence. -/
structure Redis where
  host : String
  port : Nat
  password : Option (List Nat)
  nspace : Option String
deriving DecidableEq, Repr

/-- The channel-descriptor type `request::Timeline`, external to this
core.  Modelled from the spec (§6): it supplies
`to_redis_raw_timeline(optional friendly name) -> Result<String>` and
`tag() -> Option<i64>`. -/
structure Timeline where
  tag : Option Int
  to_redis_raw_timeline : Option String → Except RedisConnErr String

/-- The command value `RedisCmd`, external to this core.  Modelled from
the spec (§3): it converts a list of already-resolved channel names into
the pair (primary-socket bytes, secondary-socket bytes). -/
structure RedisCmd where
  into_sendable : List String → List Nat × List Nat

/-- The pure fields of the real `RedisConn` struct (the two `TcpStream`
fields are replaced by explicit read outcomes / write logs at each call
site). -/
structure RedisConn where
  nspace : Option String
  tag_name_cache : LruCache Int String
  input : List Nat

/-- The pure fields built by `RedisConn::new` (lines 42-48):
`tag_name_cache: LruCache::new(1000)`, `namespace` from the
configuration, `input: vec![0; 4096 * 4]`. -/
def RedisConn.new (redis_cfg : Redis) : RedisConn :=
  { nspace := redis_cfg.nspace
    tag_name_cache := LruCache.new 1000
    input := List.replicate (4096 * 4) 0 }

/-- The mock `RedisConn` from the `mock_connection` module (lines
173-179), used under `cfg(test)`: the sockets are replaced by an
in-memory byte queue `test_input`. -/
structure MockRedisConn where
  nspace : Option String
  tag_name_cache : LruCache Int String
  input : List Nat
  test_input : List Nat
deriving DecidableEq, Repr

/-- The mock `RedisConn::new` (lines 182-189). -/
def MockRedisConn.new (redis_cfg : Redis) : MockRedisConn :=
  { nspace := redis_cfg.nspace
    tag_name_cache := LruCache.new 1000
    input := List.replicate (4096 * 4) 0
    test_input := [] }

/-- The mock `add` (lines 210-214): push every byte of `input` onto the
back of the test queue. -/
def MockRedisConn.add (c : MockRedisConn) (input : List Nat) : MockRedisConn :=
  { c with test_input := c.test_input ++ input }

/-- The buffer-growth step shared by both `poll_redis` implementations
(lines 53-57 and 193-196): if fewer than `BLOCK` bytes of headroom remain
past `i`, `self.input.resize(self.input.len() * 2, 0)`.  Resizing a
vector of length `len` to `len * 2` appends `len` zeros. -/
def growInput (input : List Nat) (i : Nat) : List Nat :=
  if input.length < i + BLOCK then input ++ List.replicate input.length 0 else input

/-- Overwrite `l` starting at index `i` with the bytes of `data`, one
`set` per byte, exactly as the read/copy loops do. -/
def writeAt : List Nat → Nat → List Nat → List Nat
  | l, _, [] => l
  | l, i, b :: rest => writeAt (l.set i b) (i + 1) rest

/-- Outcome of the single `self.primary.read(&mut self.input[i..i + BLOCK])`
call in the real `poll_redis`: a successful read delivering `data`
(`data.length ≤ BLOCK`), an `ErrorKind::WouldBlock` failure, or any other
I/O failure. -/
inductive ReadResult where
  | ok (data : List Nat)
  | wouldBlock
  | otherErr
deriving DecidableEq, Repr

/-- The real `poll_redis` (lines 51-69), with the socket read replaced by
its outcome `r`: grow the buffer if headroom is short, then map the read
outcome (`Ok(0)` → closed, `Ok(n)` → `Ready(Some(n))` with the bytes
stored at `[i, i+n)`, `WouldBlock` → `NotReady`, any other error →
logged and reported as closed). -/
def realPollRedis (input : List Nat) (i : Nat) (r : ReadResult) :
    List Nat × Async (Option Nat) :=
  let input := growInput input i
  match r with
  | .ok data =>
      if data.length = 0 then (input, .ready none)
      else (writeAt input i data, .ready (some data.length))
  | .wouldBlock => (input, .notReady)
  | .otherErr => (input, .ready none)

/-- The `for i in 0..BLOCK` loop of the mock `poll_redis` (lines
198-207): pop bytes from the front of the queue into
`input[start + i]`; if the queue empties at `i > 0` report `Ready(Some i)`,
if it is empty on the first iteration report `Ready(None)`, and if the
whole block is filled report `Ready(Some BLOCK)`. -/
def pollLoop (input : List Nat) (queue : List Nat) (start : Nat) (i : Nat) :
    List Nat × List Nat × Async (Option Nat) :=
  if _h : i < BLOCK then
    match queue with
    | b :: rest => pollLoop (input.set (start + i) b) rest start (i + 1)
    | [] => if 0 < i then (input, [], .ready (some i)) else (input, [], .ready none)
  else (input, queue, .ready (some BLOCK))
termination_by BLOCK - i

/-- The mock `poll_redis` (lines 191-208). -/
def mockPollRedis (c : MockRedisConn) (start : Nat) :
    MockRedisConn × Async (Option Nat) :=
  let input := growInput c.input start
  let r := pollLoop input c.test_input start 0
  ({ c with input := r.1, test_input := r.2.1 }, r.2.2)

/-- The reply bytes `+OK\r\n` required by `auth_connection`. -/
def okReplyBytes : List Nat := strBytes "+OK\r\n"

/-- The bytes written by `auth_connection` (lines 110-119):
`*2\r\n$4\r\nauth\r\n$` ++ the decimal length of the password ++ `\r\n`
++ the password ++ `\r\n`. -/
def encode_auth (pass : List Nat) : List Nat :=
  strBytes "*2\r\n$4\r\nauth\r\n$" ++ strBytes (toString pass.length)
    ++ strBytes "\r\n" ++ pass ++ strBytes "\r\n"

/-- Modelled from the spec: the protocol's length-prefixed binary-safe
array encoding (`*<n>\r\n` followed by `$<len>\r\n<item>\r\n` for each
item), used to state that `encode_auth` is the 2-element array command
(`auth`, password). -/
def respArray (items : List (List Nat)) : List Nat :=
  strBytes ("*" ++ toString items.length ++ "\r\n")
    ++ (items.map fun item =>
          strBytes ("$" ++ toString item.length ++ "\r\n") ++ item ++ strBytes "\r\n").flatten

/-- `auth_connection` (lines 109-128), with the socket replaced by the
reply byte stream: returns the bytes it sends plus the result of reading
exactly 5 reply bytes and requiring them to equal `+OK\r\n`.  A short
stream models a failed `read_exact` (an I/O error tagged with the
address); any 5-byte reply other than `+OK\r\n` yields
`IncorrectPassword` carrying the attempted password. -/
def auth_connection (addr : String) (pass : List Nat) (stream : List Nat) :
    List Nat × Except RedisConnErr Unit :=
  let buffer := stream.take 5
  (encode_auth pass,
    if buffer.length < 5 then .error (.withAddr addr)
    else if buffer = okReplyBytes then .ok ()
    else .error (.incorrectPassword pass))

/-- The reply classification of `validate_connection` (lines 130-143):
the guards of the `match` are tried in order, each looking only at a
leading byte window of the reply. -/
def validate_connection (addr : String) (reply : List Nat) : Except RedisConnErr Unit :=
  if (strBytes "+PONG\r\n").isPrefixOf reply then .ok ()
  else if (strBytes "-NOAUTH").isPrefixOf reply then .error .missingPassword
  else if (strBytes "HTTP/1.").isPrefixOf reply then .error (.notRedis addr)
  else .error (.invalidRedisReply reply)

/-- The channel-name resolution loop of `send_cmd` (lines 73-82): for
each timeline, look the optional tag up in the cache (which promotes the
hit), render the timeline with the optional friendly name, and prefix
the configured namespace with a colon when one is present.  The
`collect::<Result<Vec<_>>>` short-circuits at the first error.  The
cache is threaded because `get` mutates recency. -/
def resolve_timelines (ns : Option String) (cache : LruCache Int String) :
    List Timeline → Except RedisConnErr (List String) × LruCache Int String
  | [] => (.ok [], cache)
  | tl :: rest =>
    let lookup : Option String × LruCache Int String :=
      match tl.tag with
      | some id => cache.get id
      | none => (none, cache)
    let rendered : Except RedisConnErr String :=
      match ns with
      | some n => (tl.to_redis_raw_timeline lookup.1).map (fun s => n ++ ":" ++ s)
      | none => tl.to_redis_raw_timeline lookup.1
    match rendered with
    | .error e => (.error e, lookup.2)
    | .ok name =>
      match resolve_timelines ns lookup.2 rest with
      | (.ok names, cache2) => (.ok (name :: names), cache2)
      | (.error e, cache2) => (.error e, cache2)

/-- Result of a `send_cmd` call: the returned `Result`, the connection
state afterwards, and the byte sequences written to each socket. -/
structure SendResult where
  result : Except RedisConnErr Unit
  conn : RedisConn
  primary_writes : List (List Nat)
  secondary_writes : List (List Nat)

/-- The real `send_cmd` (lines 71-94): `let namespace = self.namespace.take();`
(leaving the field `None` - the source never writes it back), resolve
every timeline, encode both commands via `into_sendable`, then
`write_all` the primary and secondary bytes.  On a resolution error the
`?` at `&timelines?[..]` returns before any write. -/
def send_cmd (conn : RedisConn) (cmd : RedisCmd) (timelines : List Timeline) :
    SendResult :=
  let ns := conn.nspace
  let conn := { conn with nspace := none }
  let resolved := resolve_timelines ns conn.tag_name_cache timelines
  let conn := { conn with tag_name_cache := resolved.2 }
  match resolved.1 with
  | .error e => ⟨.error e, conn, [], []⟩
  | .ok names =>
    let cmds := cmd.into_sendable names
    ⟨.ok (), conn, [cmds.1], [cmds.2]⟩

/-! Helper lemmas about the buffer primitives. -/

theorem writeAt_length : ∀ (data l : List Nat) (i : Nat),
    (writeAt l i data).length = l.length := by
  intro data
  induction data with
  | nil => intro l i; rfl
  | cons b rest ih => intro l i; simp [writeAt, ih, List.length_set]

theorem growInput_eq_of_low (input : List Nat) (i : Nat)
    (h : input.length < i + BLOCK) :
    growInput input i = input ++ List.replicate input.length 0 := by
  simp [growInput, h]

theorem growInput_length_of_low (input : List Nat) (i : Nat)
    (h : input.length < i + BLOCK) :
    (growInput input i).length = 2 * input.length := by
  rw [growInput_eq_of_low input i h, List.length_append, List.length_replicate]
  omega

/-- Full characterisation of the mock read loop: it pops
`min (BLOCK - i) queue.length` bytes, writes them at `start + i`, and
reports the total count (or `Ready(None)` when nothing at all was
available). -/
theorem pollLoop_spec : ∀ (queue input : List Nat) (start i : Nat), i ≤ BLOCK →
    pollLoop input queue start i =
      (writeAt input (start + i) (queue.take (min (BLOCK - i) queue.length)),
       queue.drop (min (BLOCK - i) queue.length),
       if 0 < i + min (BLOCK - i) queue.length
         then .ready (some (i + min (BLOCK - i) queue.length))
         else .ready none) := by
  intro queue
  induction queue with
  | nil =>
    intro input start i hi
    rw [pollLoop]
    by_cases h : i < BLOCK
    · simp only [h, dite_true, List.length_nil, Nat.min_zero, List.take_zero, writeAt,
        List.drop_zero, Nat.add_zero]
      split <;> rfl
    · have hEq : i = BLOCK := by omega
      subst hEq
      simp [writeAt, BLOCK]
  | cons b rest ih =>
    intro input start i hi
    rw [pollLoop]
    by_cases h : i < BLOCK
    · rw [dif_pos h]
      rw [ih (input.set (start + i) b) start (i + 1) (by omega)]
      have hmin : min (BLOCK - i) (b :: rest).length
          = min (BLOCK - (i + 1)) rest.length + 1 := by
        simp only [List.length_cons]
        omega
      rw [hmin]
      simp only [List.take_succ_cons, List.drop_succ_cons, writeAt]
      have h1 : start + i + 1 = start + (i + 1) := by omega
      have h2 : i + (min (BLOCK - (i + 1)) rest.length + 1)
          = i + 1 + min (BLOCK - (i + 1)) rest.length := by omega
      rw [h1, h2]
    · have hEq : i = BLOCK := by omega
      subst hEq
      simp [writeAt, BLOCK]

theorem pollLoop_input_length (queue : List Nat) : ∀ (input : List Nat) (start i : Nat),
    ((pollLoop input queue start i).1).length = input.length := by
  induction queue with
  | nil =>
    intro input start i
    rw [pollLoop]
    by_cases h : i < BLOCK
    · simp only [h, dite_true]
      split <;> rfl
    · simp [h]
  | cons b rest ih =>
    intro input start i
    rw [pollLoop]
    by_cases h : i < BLOCK
    · rw [dif_pos h]
      rw [ih (input.set (start + i) b) start (i + 1)]
      simp [List.length_set]
    · simp [h]

theorem mockPollRedis_ne_notReady (c : MockRedisConn) (start : Nat) :
    (mockPollRedis c start).2 ≠ Async.notReady := by
  have h := pollLoop_spec c.test_input (growInput c.input start) start 0 (by simp [BLOCK])
  simp only [mockPollRedis, h]
  split <;> simp

theorem mockPollRedis_empty_queue (c : MockRedisConn) (start : Nat)
    (h : c.test_input = []) :
    (mockPollRedis c start).2 = Async.ready none := by
  simp only [mockPollRedis, h]
  rw [pollLoop]
  simp [BLOCK]

/-! Claim theorems. -/

/-- Claim C1 is refuted by the code (code bug): `send_cmd` takes the
namespace out of the manager (`self.namespace.take()`, line 72) and
never writes it back, so after any `send_cmd` call - on success and on
error paths alike - the namespace field is `None`, and subsequent sends
no longer observe the configured namespace.  The specification requires
it to be restored before returning. -/
theorem send_cmd_clears_namespace (conn : RedisConn) (cmd : RedisCmd)
    (timelines : List Timeline) :
    ((send_cmd conn cmd timelines).conn).nspace = none := by
  simp only [send_cmd]
  split <;> rfl

/-- Claim C2: whenever `len(input) - offset < BLOCK` (with the buffer in
a reachable shape: `BLOCK ≤ len` and `offset ≤ len`), `poll_redis`
doubles the buffer exactly once, zero-filled, before the read; after
that single doubling `offset + BLOCK ≤ len` holds, so the read window
`input[offset..offset+BLOCK]` is in bounds.  This holds for the real
transport and for the mock transport. -/
theorem poll_buffer_growth (input : List Nat) (i : Nat) (r : ReadResult)
    (c : MockRedisConn) (hc : c.input = input)
    (hblock : BLOCK ≤ input.length) (hi : i ≤ input.length)
    (hcond : input.length - i < BLOCK) :
    growInput input i = input ++ List.replicate input.length 0
      ∧ (growInput input i).length = 2 * input.length
      ∧ i + BLOCK ≤ (growInput input i).length
      ∧ (realPollRedis input i r).1.length = 2 * input.length
      ∧ ((mockPollRedis c i).1.input).length = 2 * input.length := by
  have hlt : input.length < i + BLOCK := by omega
  have hgrow := growInput_eq_of_low input i hlt
  have hlen := growInput_length_of_low input i hlt
  refine ⟨hgrow, hlen, by omega, ?_, ?_⟩
  · cases r with
    | ok data =>
      by_cases hd : data.length = 0
      · simp [realPollRedis, hd, hlen]
      · simp [realPollRedis, hd, writeAt_length, hlen]
    | wouldBlock => simpa [realPollRedis] using hlen
    | otherErr => simpa [realPollRedis] using hlen
  · subst hc
    simp [mockPollRedis, pollLoop_input_length, hlen]

theorem poll_buffer_growth_witness :
    BLOCK ≤ (List.replicate 16384 0 : List Nat).length
      ∧ (growInput (List.replicate 16384 0) 9000).length
          = 2 * (List.replicate 16384 0 : List Nat).length :=
  ⟨by rw [List.length_replicate]; norm_num [BLOCK],
   (poll_buffer_growth (List.replicate 16384 0) 9000 .wouldBlock
      ⟨none, LruCache.new 1000, List.replicate 16384 0, []⟩ rfl
      (by rw [List.length_replicate]; norm_num [BLOCK])
      (by rw [List.length_replicate]; norm_num)
      (by rw [List.length_replicate]; norm_num [BLOCK])).2.1⟩

/-- A concrete configuration (the defaults of `redis_cfg_types.rs`). -/
def defaultRedisCfg : Redis := ⟨"127.0.0.1", 6379, none, none⟩

/-- Claim C3 counterexample: on the in-memory test transport with no
bytes available (a fresh mock connection whose queue is empty),
`poll_redis` returns `Ready(None)` - the "closed" outcome - not
`NotReady`, so the claim's "this holds for both ... the in-memory test
transport" is false. -/
theorem mock_poll_empty_reports_closed :
    (mockPollRedis (MockRedisConn.new defaultRedisCfg) 0).2 = Async.ready none
      ∧ Async.ready (none : Option Nat) ≠ Async.notReady :=
  ⟨mockPollRedis_empty_queue (MockRedisConn.new defaultRedisCfg) 0 rfl, by decide⟩

/-- Claim C3 (amended): on the real-socket transport a would-block read
(no bytes available, stream open) yields `NotReady` and a zero-byte read
(peer closed) yields `Ready(None)`, and the two outcomes are distinct;
the in-memory test transport, however, never returns `NotReady` and
reports `Ready(None)` whenever its queue is empty. -/
theorem poll_not_ready_vs_closed :
    (∀ (input : List Nat) (i : Nat),
        (realPollRedis input i .wouldBlock).2 = Async.notReady)
    ∧ (∀ (input : List Nat) (i : Nat),
        (realPollRedis input i (.ok [])).2 = Async.ready none)
    ∧ Async.notReady ≠ Async.ready (none : Option Nat)
    ∧ (∀ (c : MockRedisConn) (start : Nat),
        (mockPollRedis c start).2 ≠ Async.notReady)
    ∧ (∀ (c : MockRedisConn) (start : Nat), c.test_input = [] →
        (mockPollRedis c start).2 = Async.ready none) :=
  ⟨fun _ _ => rfl, fun _ _ => rfl, by decide,
   mockPollRedis_ne_notReady, mockPollRedis_empty_queue⟩

theorem poll_not_ready_vs_closed_witness :
    (realPollRedis (List.replicate 16384 0) 0 .wouldBlock).2 = Async.notReady
      ∧ (mockPollRedis ⟨none, LruCache.new 1000, List.replicate 16384 0, []⟩ 0).2
          = Async.ready none :=
  ⟨poll_not_ready_vs_closed.1 (List.replicate 16384 0) 0,
   poll_not_ready_vs_closed.2.2.2.2
     ⟨none, LruCache.new 1000, List.replicate 16384 0, []⟩ 0 rfl⟩

/-- The outcome mapping stated by claim C6, written from the claim's
words for comparison with `realPollRedis`: a 0-byte read is closed, an
n-byte read is ready with n, a would-block condition is not-ready, and
any other I/O failure degrades to closed. -/
def readOutcomeSpec : ReadResult → Async (Option Nat)
  | .ok data => if data.length = 0 then .ready none else .ready (some data.length)
  | .wouldBlock => .notReady
  | .otherErr => .ready none

/-- Claim C6: the real `poll_redis` maps the single read attempt's
outcome totally and exclusively as the claim states - the reported
value is a function of the read outcome alone, equal to
`readOutcomeSpec`. -/
theorem real_poll_outcome_mapping (input : List Nat) (i : Nat) (r : ReadResult) :
    (realPollRedis input i r).2 = readOutcomeSpec r := by
  cases r with
  | ok data =>
    by_cases hd : data.length = 0 <;> simp [realPollRedis, readOutcomeSpec, hd]
  | wouldBlock => rfl
  | otherErr => rfl

theorem isPrefixOf_head : ∀ (a : Nat) (p r : List Nat),
    ((a :: p).isPrefixOf r) = true → r.head? = some a := by
  intro a p r h
  cases r with
  | nil => simp [List.isPrefixOf] at h
  | cons b bs =>
    simp [List.isPrefixOf] at h
    simp [h.1]

theorem heads_differ {a b : Nat} (p q r : List Nat) (hab : a ≠ b)
    (hp : (a :: p).isPrefixOf r = true) (hq : (b :: q).isPrefixOf r = true) :
    False := by
  have h1 := isPrefixOf_head a p r hp
  have h2 := isPrefixOf_head b q r hq
  rw [h1] at h2
  exact hab (Option.some.inj h2)

theorem pongBytes_eq : strBytes "+PONG\r\n" = [43, 80, 79, 78, 71, 13, 10] := by decide

theorem noauthBytes_eq : strBytes "-NOAUTH" = [45, 78, 79, 65, 85, 84, 72] := by decide

theorem httpBytes_eq : strBytes "HTTP/1." = [72, 84, 84, 80, 47, 49, 46] := by decide

/-- Claim C4: handshake reply classification inspects only the leading
bytes and is exhaustive and mutually exclusive - a reply beginning with
`+PONG\r\n` succeeds, one beginning with `-NOAUTH` yields
`MissingPassword`, one beginning with `HTTP/1.` yields `NotRedis`
carrying the address (and never `InvalidReply`), and every other reply
yields `InvalidReply` carrying the raw text. -/
theorem validate_connection_classification (addr : String) (reply : List Nat) :
    ((strBytes "+PONG\r\n").isPrefixOf reply = true →
        validate_connection addr reply = .ok ())
    ∧ ((strBytes "-NOAUTH").isPrefixOf reply = true →
        validate_connection addr reply = .error .missingPassword)
    ∧ ((strBytes "HTTP/1.").isPrefixOf reply = true →
        validate_connection addr reply = .error (.notRedis addr)
          ∧ ∀ s, validate_connection addr reply ≠ .error (.invalidRedisReply s))
    ∧ ((strBytes "+PONG\r\n").isPrefixOf reply = false →
        (strBytes "-NOAUTH").isPrefixOf reply = false →
        (strBytes "HTTP/1.").isPrefixOf reply = false →
        validate_connection addr reply = .error (.invalidRedisReply reply)) := by
  refine ⟨?_, ?_, ?_, ?_⟩
  · intro h
    simp [validate_connection, h]
  · intro h
    have hpong : ¬ (strBytes "+PONG\r\n").isPrefixOf reply = true := fun hc =>
      heads_differ _ _ reply (by decide : (43 : Nat) ≠ 45)
        (pongBytes_eq ▸ hc) (noauthBytes_eq ▸ h)
    simp [validate_connection, hpong, h]
  · intro h
    have hpong : ¬ (strBytes "+PONG\r\n").isPrefixOf reply = true := fun hc =>
      heads_differ _ _ reply (by decide : (43 : Nat) ≠ 72)
        (pongBytes_eq ▸ hc) (httpBytes_eq ▸ h)
    have hnoauth : ¬ (strBytes "-NOAUTH").isPrefixOf reply = true := fun hc =>
      heads_differ _ _ reply (by decide : (45 : Nat) ≠ 72)
        (noauthBytes_eq ▸ hc) (httpBytes_eq ▸ h)
    refine ⟨by simp [validate_connection, hpong, hnoauth, h], ?_⟩
    intro s
    simp [validate_connection, hpong, hnoauth, h]
  · intro h1 h2 h3
    simp [validate_connection, h1, h2, h3]

theorem validate_connection_classification_witness :
    validate_connection "example:6379" (strBytes "+PONG\r\nextra") = .ok ()
      ∧ validate_connection "example:6379" (strBytes "-NOAUTH please auth")
          = .error .missingPassword
      ∧ validate_connection "example:6379" (strBytes "HTTP/1.1 200 OK")
          = .error (.notRedis "example:6379")
      ∧ validate_connection "example:6379" (strBytes "$5 hello")
          = .error (.invalidRedisReply (strBytes "$5 hello")) :=
  ⟨(validate_connection_classification "example:6379" _).1 (by decide),
   (validate_connection_classification "example:6379" _).2.1 (by decide),
   ((validate_connection_classification "example:6379" _).2.2.1 (by decide)).1,
   (validate_connection_classification "example:6379" _).2.2.2
     (by decide) (by decide) (by decide)⟩

theorem strBytes_append (s t : String) : strBytes (s ++ t) = strBytes s ++ strBytes t := by
  simp [strBytes]

/-- Claim C5: `auth_connection` sends exactly the length-prefixed
2-element array command for (`auth`, password); its verdict depends only
on the first 5 reply bytes; and - when 5 bytes are available - it
returns `IncorrectPassword` carrying the attempted password iff those
5 bytes differ from `+OK\r\n`, succeeding iff they equal it. -/
theorem auth_connection_spec (addr : String) (pass stream : List Nat) :
    (auth_connection addr pass stream).1 = respArray [strBytes "auth", pass]
    ∧ (∀ t, stream.take 5 = t.take 5 →
        auth_connection addr pass stream = auth_connection addr pass t)
    ∧ (5 ≤ stream.length →
        ((auth_connection addr pass stream).2 = .error (.incorrectPassword pass)
            ↔ stream.take 5 ≠ okReplyBytes)
          ∧ (stream.take 5 = okReplyBytes →
              (auth_connection addr pass stream).2 = .ok ())) := by
  refine ⟨?_, ?_, ?_⟩
  · show encode_auth pass = respArray [strBytes "auth", pass]
    rw [encode_auth, respArray]
    have hlen2 : ([strBytes "auth", pass] : List (List Nat)).length = 2 := rfl
    have hlen4 : (strBytes "auth").length = 4 := rfl
    rw [hlen2]
    simp only [List.map_cons, List.map_nil, hlen4, List.flatten_cons, List.flatten_nil,
      List.append_nil, strBytes_append]
    have l1 : strBytes "*2\r\n$4\r\nauth\r\n$"
        = [42, 50, 13, 10, 36, 52, 13, 10, 97, 117, 116, 104, 13, 10, 36] := by decide
    have l2 : strBytes "\r\n" = [13, 10] := by decide
    have l3 : strBytes "auth" = [97, 117, 116, 104] := by decide
    have l4 : strBytes "*" = [42] := by decide
    have l5 : strBytes "$" = [36] := by decide
    have l6 : strBytes (toString (2 : Nat)) = [50] := by decide
    have l7 : strBytes (toString (4 : Nat)) = [52] := by decide
    rw [l1, l2, l3, l4, l5, l6, l7]
    simp
  · intro t h
    simp only [auth_connection, h]
  · intro h5
    have hblen : (stream.take 5).length = 5 := by
      rw [List.length_take]
      omega
    refine ⟨?_, ?_⟩
    · by_cases heq : stream.take 5 = okReplyBytes
      · simp [auth_connection, hblen, heq, show okReplyBytes.length = 5 from rfl]
      · simp [auth_connection, hblen, heq]
    · intro heq
      simp [auth_connection, hblen, heq, show okReplyBytes.length = 5 from rfl]

theorem auth_connection_spec_witness :
    (auth_connection "example:6379" (strBytes "pw") (okReplyBytes ++ [1, 2, 3])).2 = .ok ()
      ∧ ((auth_connection "example:6379" (strBytes "pw") [45, 69, 82, 82, 13]).2
            = .error (.incorrectPassword (strBytes "pw"))
          ↔ ([45, 69, 82, 82, 13] : List Nat).take 5 ≠ okReplyBytes) :=
  ⟨((auth_connection_spec "example:6379" (strBytes "pw")
      (okReplyBytes ++ [1, 2, 3])).2.2 (by decide)).2 (by decide),
   ((auth_connection_spec "example:6379" (strBytes "pw")
      [45, 69, 82, 82, 13]).2.2 (by decide)).1⟩

/-- Claim C9: with a configured namespace, the resolved wire channel
name handed to the primary command is the namespace, a colon, and the
rendered name; with no namespace the rendered name is used unprefixed. -/
theorem send_cmd_namespace_prefixing (cache : LruCache Int String)
    (input : List Nat) (cmd : RedisCmd) (tl : Timeline) (ns name : String)
    (hrender : ∀ h, tl.to_redis_raw_timeline h = .ok name) :
    (send_cmd ⟨some ns, cache, input⟩ cmd [tl]).primary_writes
        = [(cmd.into_sendable [ns ++ ":" ++ name]).1]
      ∧ (send_cmd ⟨none, cache, input⟩ cmd [tl]).primary_writes
        = [(cmd.into_sendable [name]).1] := by
  cases htag : tl.tag with
  | none => exact ⟨by simp [send_cmd, resolve_timelines, htag, hrender, Except.map],
      by simp [send_cmd, resolve_timelines, htag, hrender, Except.map]⟩
  | some id => exact ⟨by simp [send_cmd, resolve_timelines, htag, hrender, Except.map],
      by simp [send_cmd, resolve_timelines, htag, hrender, Except.map]⟩

/-- A concrete channel descriptor rendering to `timeline:public`. -/
def publicTimeline : Timeline := ⟨none, fun _ => .ok "timeline:public"⟩

/-- A concrete command value whose primary bytes join the channel names. -/
def subCmd : RedisCmd :=
  ⟨fun names => (strBytes ("subscribe " ++ String.join names),
                 strBytes ("set " ++ String.join names))⟩

theorem send_cmd_namespace_prefixing_witness :
    (send_cmd ⟨some "ns", LruCache.new 1000, []⟩ subCmd [publicTimeline]).primary_writes
        = [(subCmd.into_sendable ["ns:timeline:public"]).1]
      ∧ (send_cmd ⟨none, LruCache.new 1000, []⟩ subCmd [publicTimeline]).primary_writes
        = [(subCmd.into_sendable ["timeline:public"]).1] := by
  have h := send_cmd_namespace_prefixing (LruCache.new 1000) [] subCmd publicTimeline
    "ns" "timeline:public" (fun _ => rfl)
  have hstr : ("ns" : String) ++ ":" ++ "timeline:public" = "ns:timeline:public" := by decide
  rw [hstr] at h
  exact h

/-- Claim C10: if resolving any channel descriptor to a wire-format name
fails, `send_cmd` returns that error and no bytes are written to either
connection - resolution (and encoding) precede the first socket write. -/
theorem send_cmd_error_before_write (conn : RedisConn) (cmd : RedisCmd)
    (timelines : List Timeline) (e : RedisConnErr)
    (h : (resolve_timelines conn.nspace conn.tag_name_cache timelines).1 = .error e) :
    (send_cmd conn cmd timelines).result = .error e
      ∧ (send_cmd conn cmd timelines).primary_writes = []
      ∧ (send_cmd conn cmd timelines).secondary_writes = [] := by
  refine ⟨?_, ?_, ?_⟩ <;> simp [send_cmd, h]

/-- A concrete channel descriptor whose rendering fails. -/
def badTimeline : Timeline := ⟨none, fun _ => .error .missingPassword⟩

theorem send_cmd_error_before_write_witness :
    (send_cmd ⟨some "ns", LruCache.new 1000, []⟩ subCmd [badTimeline]).result
        = .error .missingPassword
      ∧ (send_cmd ⟨some "ns", LruCache.new 1000, []⟩ subCmd
          [badTimeline]).primary_writes = []
      ∧ (send_cmd ⟨some "ns", LruCache.new 1000, []⟩ subCmd
          [badTimeline]).secondary_writes = [] :=
  send_cmd_error_before_write ⟨some "ns", LruCache.new 1000, []⟩ subCmd
    [badTimeline] .missingPassword rfl

theorem set_take_succ (l : List Nat) (i b : Nat) (h : i < l.length) :
    (l.set i b).take (i + 1) = l.take i ++ [b] := by
  rw [List.set_eq_take_cons_drop b h]
  rw [show i + 1 = (l.take i).length + 1 from by rw [List.length_take]; omega]
  rw [List.take_append]
  simp

theorem writeAt_eq : ∀ (data l : List Nat) (i : Nat), i + data.length ≤ l.length →
    writeAt l i data = l.take i ++ data ++ l.drop (i + data.length) := by
  intro data
  induction data with
  | nil =>
    intro l i h
    simp [writeAt]
  | cons b rest ih =>
    intro l i h
    have hi : i < l.length := by simp at h; omega
    rw [writeAt]
    rw [ih (l.set i b) (i + 1) (by simp [List.length_set]; simp at h; omega)]
    rw [set_take_succ l i b hi]
    rw [List.drop_set_of_lt b l (by omega : i < i + 1 + rest.length)]
    simp only [List.length_cons]
    rw [show i + (rest.length + 1) = i + 1 + rest.length from by omega]
    simp [List.append_assoc]

/-- One mock `poll_redis` call, characterised: it transfers
`k = min BLOCK queue.length` bytes from the front of the queue to the
buffer positions `[off, off + k)` and reports `Ready(Some k)` (or
`Ready(None)` when the queue was empty), preserving the buffer-shape
invariants. -/
theorem mockPollRedis_spec (c : MockRedisConn) (off : Nat)
    (h2 : off ≤ c.input.length) (h3 : BLOCK ≤ c.input.length) :
    (mockPollRedis c off).1.test_input
        = c.test_input.drop (min BLOCK c.test_input.length)
      ∧ (mockPollRedis c off).1.input.take (off + min BLOCK c.test_input.length)
        = c.input.take off ++ c.test_input.take (min BLOCK c.test_input.length)
      ∧ off + min BLOCK c.test_input.length ≤ (mockPollRedis c off).1.input.length
      ∧ BLOCK ≤ (mockPollRedis c off).1.input.length
      ∧ (mockPollRedis c off).2
        = (if 0 < min BLOCK c.test_input.length
            then Async.ready (some (min BLOCK c.test_input.length))
            else Async.ready none) := by
  have hgrow_len : off + BLOCK ≤ (growInput c.input off).length := by
    unfold growInput
    split
    · rw [List.length_append, List.length_replicate]
      omega
    · omega
  have hgrow_take : (growInput c.input off).take off = c.input.take off := by
    unfold growInput
    split
    · exact List.take_append_of_le_length h2
    · rfl
  have hspec := pollLoop_spec c.test_input (growInput c.input off) off 0 (by omega)
  simp only [Nat.sub_zero, Nat.zero_add] at hspec
  have hkB : min BLOCK c.test_input.length ≤ BLOCK := Nat.min_le_left _ _
  have hkq : min BLOCK c.test_input.length ≤ c.test_input.length := Nat.min_le_right _ _
  have hwlen : (mockPollRedis c off).1.input.length = (growInput c.input off).length := by
    simp only [mockPollRedis, hspec]
    exact writeAt_length _ _ _
  refine ⟨?_, ?_, ?_, ?_, ?_⟩
  · simp only [mockPollRedis, hspec]
  · simp only [mockPollRedis, hspec]
    rw [writeAt_eq _ _ _ ?_]
    · have hx : ((growInput c.input off).take (off + 0)
          ++ c.test_input.take (min BLOCK c.test_input.length)).length
            = off + min BLOCK c.test_input.length := by
        rw [List.length_append, List.length_take, List.length_take]
        omega
      rw [show off + min BLOCK c.test_input.length = ((growInput c.input off).take (off + 0)
          ++ c.test_input.take (min BLOCK c.test_input.length)).length from hx.symm]
      rw [List.take_left]
      rw [Nat.add_zero, hgrow_take]
    · rw [List.length_take]
      omega
  · omega
  · omega
  · simp only [mockPollRedis, hspec]

/-- One scheduler operation against the mock transport: feed a chunk of
bytes into the fake backend's outbound stream, or poll. -/
inductive MockOp where
  | feed (chunk : List Nat)
  | poll

/-- Run one operation, threading the connection and the running offset:
the start offset of each poll is the sum of the previously reported byte
counts, exactly as the claim's caller protocol prescribes. -/
def mockStep (s : MockRedisConn × Nat) (op : MockOp) : MockRedisConn × Nat :=
  match op with
  | .feed chunk => (s.1.add chunk, s.2)
  | .poll =>
    let r := mockPollRedis s.1 s.2
    (r.1, s.2 + match r.2 with
      | .ready (some n) => n
      | _ => 0)

/-- Run a whole operation sequence from a freshly constructed mock
connection (offset starts at 0). -/
def mockRun (init : MockRedisConn) (ops : List MockOp) : MockRedisConn × Nat :=
  ops.foldl mockStep (init, 0)

/-- All bytes fed across a list of operations, in arrival order. -/
def fedBytes (ops : List MockOp) : List Nat :=
  (ops.map fun op => match op with | .feed chunk => chunk | .poll => []).flatten

/-- The trace invariant: the consumed buffer prefix followed by the
still-queued bytes is exactly the concatenation of everything fed, and
the buffer is in a reachable shape. -/
def MockInv (s : MockRedisConn × Nat) (fed : List Nat) : Prop :=
  s.1.input.take s.2 ++ s.1.test_input = fed
    ∧ s.2 ≤ s.1.input.length
    ∧ BLOCK ≤ s.1.input.length

theorem mockStep_inv (s : MockRedisConn × Nat) (fed : List Nat) (op : MockOp)
    (h : MockInv s fed) :
    MockInv (mockStep s op)
      (fed ++ match op with | .feed chunk => chunk | .poll => []) := by
  obtain ⟨h1, h2, h3⟩ := h
  cases op with
  | feed chunk =>
    refine ⟨?_, h2, h3⟩
    simp only [mockStep, MockRedisConn.add]
    rw [← h1, List.append_assoc]
  | poll =>
    obtain ⟨p1, p2, p3, p4, p5⟩ := mockPollRedis_spec s.1 s.2 h2 h3
    have hoff : (mockStep s .poll).2 = s.2 + min BLOCK s.1.test_input.length := by
      show s.2 + (match (mockPollRedis s.1 s.2).2 with
        | Async.ready (some n) => n | _ => 0) = s.2 + min BLOCK s.1.test_input.length
      rw [p5]
      by_cases hk : 0 < min BLOCK s.1.test_input.length
      · rw [if_pos hk]
      · rw [if_neg hk]
        show s.2 + 0 = s.2 + min BLOCK s.1.test_input.length
        omega
    have hconn : (mockStep s .poll).1 = (mockPollRedis s.1 s.2).1 := rfl
    refine ⟨?_, ?_, ?_⟩
    · rw [hconn, hoff, p1, p2, List.append_assoc, List.take_append_drop, h1,
        List.append_nil]
    · rw [hconn, hoff]
      exact p3
    · rw [hconn]
      exact p4

theorem mockRun_inv : ∀ (ops : List MockOp) (s : MockRedisConn × Nat) (fed : List Nat),
    MockInv s fed → MockInv (ops.foldl mockStep s) (fed ++ fedBytes ops) := by
  intro ops
  induction ops with
  | nil =>
    intro s fed h
    simpa [fedBytes] using h
  | cons op rest ih =>
    intro s fed h
    simp only [List.foldl_cons]
    have hfed : fed ++ fedBytes (op :: rest)
        = (fed ++ match op with | .feed chunk => chunk | .poll => []) ++ fedBytes rest := by
      cases op <;> simp [fedBytes]
    rw [hfed]
    exact ih (mockStep s op) _ (mockStep_inv s fed op h)

/-- Claim C7: for every sequence of feeds and polls - each poll starting
where the previously reported counts left off - the consumed buffer
prefix together with the still-queued bytes is exactly the concatenation
of the fed chunks in arrival order (no gaps, no duplication), and the
reported counts (the final offset) plus the still-queued bytes account
for every byte fed; in particular once the queue is drained the counts
sum to the total number of bytes fed. -/
theorem mock_poll_stream_integrity (cfg : Redis) (ops : List MockOp) :
    (mockRun (MockRedisConn.new cfg) ops).1.input.take
          (mockRun (MockRedisConn.new cfg) ops).2
        ++ (mockRun (MockRedisConn.new cfg) ops).1.test_input = fedBytes ops
      ∧ (mockRun (MockRedisConn.new cfg) ops).2
          + (mockRun (MockRedisConn.new cfg) ops).1.test_input.length
        = (fedBytes ops).length := by
  simp only [mockRun]
  have h0 : MockInv (MockRedisConn.new cfg, 0) [] := by
    refine ⟨rfl, Nat.zero_le _, ?_⟩
    show BLOCK ≤ (List.replicate (4096 * 4) 0 : List Nat).length
    rw [List.length_replicate]
    norm_num [BLOCK]
  have h := mockRun_inv ops (MockRedisConn.new cfg, 0) [] h0
  rw [List.nil_append] at h
  obtain ⟨h1, h2, _⟩ := h
  refine ⟨h1, ?_⟩
  have hlen := congrArg List.length h1
  rw [List.length_append, List.length_take, Nat.min_eq_left h2] at hlen
  exact hlen

theorem put_size_le {K V : Type} [DecidableEq K] (c : LruCache K V) (k : K) (v : V)
    (h : c.size ≤ c.capacity) : (c.put k v).size ≤ c.capacity := by
  have hf := List.length_filter_le (fun e => !(e.1 == k)) c.entries
  simp only [LruCache.put, LruCache.size] at *
  split
  · simp only [List.length_dropLast, List.length_cons]
    omega
  · next hc =>
    simp only [List.length_cons] at hc ⊢
    omega

theorem get_size_le {K V : Type} [DecidableEq K] (c : LruCache K V) (k : K)
    (h : c.size ≤ c.capacity) : ((c.get k).2).size ≤ c.capacity := by
  cases hf : c.entries.find? (fun e => e.1 == k) with
  | none => simpa [LruCache.get, LruCache.size, hf] using h
  | some e =>
    have hmem := List.mem_of_find?_eq_some hf
    have hp := List.find?_some hf
    have hlt : (c.entries.filter (fun e2 => !(e2.1 == k))).length < c.entries.length :=
      List.length_filter_lt_length_iff_exists.mpr ⟨e, hmem, by simp [hp]⟩
    simp only [LruCache.get, LruCache.size, hf, List.length_cons] at *
    omega

theorem find?_of_mem_nodup {K V : Type} [DecidableEq K] :
    ∀ (l : List (K × V)) (k : K) (v : V),
    (l.map Prod.fst).Nodup → (k, v) ∈ l →
    l.find? (fun e => e.1 == k) = some (k, v) := by
  intro l
  induction l with
  | nil => intro k v _ hmem; cases hmem
  | cons e rest ih =>
    intro k v hnd hmem
    rw [List.map_cons, List.nodup_cons] at hnd
    by_cases he : e.1 = k
    · rcases List.mem_cons.mp hmem with hEq | hTail
      · rw [List.find?_cons_of_pos _ (by simp [he]), ← hEq]
      · exfalso
        have : k ∈ rest.map Prod.fst := by
          have := List.mem_map_of_mem Prod.fst hTail
          simpa using this
        exact hnd.1 (he ▸ this)
    · rw [List.find?_cons_of_neg _ (by simp [he])]
      rcases List.mem_cons.mp hmem with hEq | hTail
      · exact absurd (congrArg Prod.fst hEq.symm) he
      · exact ih k v hnd.2 hTail

theorem get_of_mem_nodup {K V : Type} [DecidableEq K] (c : LruCache K V) (k : K) (v : V)
    (hnd : c.keysNodup) (hmem : (k, v) ∈ c.entries) :
    (c.get k).1 = some v ∧ ((c.get k).2).entries.head? = some (k, v) := by
  have hf := find?_of_mem_nodup c.entries k v hnd hmem
  simp [LruCache.get, hf]

theorem get_none_of_not_mem {K V : Type} [DecidableEq K] (c : LruCache K V) (k : K)
    (h : k ∉ c.entries.map Prod.fst) : (c.get k).1 = none := by
  have hf : c.entries.find? (fun e => e.1 == k) = none := by
    rw [List.find?_eq_none]
    intro x hx
    simp only [beq_iff_eq]
    intro hEq
    exact h (hEq ▸ List.mem_map_of_mem Prod.fst hx)
  simp [LruCache.get, hf]

theorem new_capacity {K V : Type} (cap : Nat) :
    (LruCache.new cap : LruCache K V).capacity = cap := rfl

theorem put_capacity {K V : Type} [DecidableEq K] (c : LruCache K V) (k : K) (v : V) :
    (c.put k v).capacity = c.capacity := by
  simp only [LruCache.put]
  split <;> rfl

theorem fillCache_capacity {K V : Type} [DecidableEq K] :
    ∀ (kvs : List (K × V)) (c : LruCache K V),
    (fillCache c kvs).capacity = c.capacity := by
  intro kvs
  induction kvs with
  | nil => intro c; rfl
  | cons kv rest ih =>
    intro c
    show (fillCache (c.put kv.1 kv.2) rest).capacity = c.capacity
    rw [ih, put_capacity]

/-- Filling an empty cache with pairwise-distinct keys leaves exactly
the last `cap` insertions, most recent first. -/
theorem fill_entries {cap : Nat} : ∀ (kvs : List (Int × String)),
    (kvs.map Prod.fst).Nodup →
    (fillCache (LruCache.new cap) kvs).entries = kvs.reverse.take cap := by
  intro kvs
  induction kvs using List.reverseRecOn with
  | nil => intro _; simp [fillCache, LruCache.new]
  | append_singleton kvs kv ih =>
    intro hnd
    have hnd' : ((kvs.map Prod.fst) ++ [kv.1]).Nodup := by simpa using hnd
    obtain ⟨hnd1, _, hdisj⟩ := List.nodup_append.mp hnd'
    have hnotin : kv.1 ∉ kvs.map Prod.fst :=
      fun hmem => hdisj hmem (List.mem_singleton.mpr rfl)
    have hstep : fillCache (LruCache.new cap) (kvs ++ [kv])
        = (fillCache (LruCache.new cap) kvs).put kv.1 kv.2 := by
      simp [fillCache, List.foldl_append]
    have hfilter : (List.take cap kvs.reverse).filter
        (fun e => !(e.1 == kv.1)) = List.take cap kvs.reverse := by
      apply List.filter_eq_self.mpr
      intro e he
      have hmem : e ∈ kvs := List.mem_reverse.mp (List.mem_of_mem_take he)
      have hkey : e.1 ∈ kvs.map Prod.fst := List.mem_map_of_mem Prod.fst hmem
      simp only [Bool.not_eq_eq_eq_not, Bool.not_true, beq_eq_false_iff_ne, ne_eq]
      exact fun hEq => hnotin (hEq ▸ hkey)
    rw [hstep]
    simp only [LruCache.put, ih hnd1, fillCache_capacity, new_capacity, hfilter]
    show (if cap < ((kv.1, kv.2) :: List.take cap kvs.reverse).length
        then (⟨cap, ((kv.1, kv.2) :: List.take cap kvs.reverse).dropLast⟩ : LruCache Int String)
        else ⟨cap, (kv.1, kv.2) :: List.take cap kvs.reverse⟩).entries
      = (kvs ++ [kv]).reverse.take cap
    rw [List.reverse_append, List.reverse_singleton, List.singleton_append]
    by_cases hcap : cap < ((kv.1, kv.2) :: kvs.reverse.take cap).length
    · rw [if_pos hcap]
      show ((kv.1, kv.2) :: kvs.reverse.take cap).dropLast = (kv :: kvs.reverse).take cap
      simp only [List.length_cons, List.length_take, List.length_reverse] at hcap
      cases cap with
      | zero => simp
      | succ m =>
        have hlen : (kvs.reverse.take (m + 1)).length = m + 1 := by
          rw [List.length_take, List.length_reverse]
          omega
        rw [List.dropLast_cons_of_ne_nil (by
          intro hnil
          rw [hnil] at hlen
          simp at hlen)]
        rw [List.take_succ_cons]
        have hdrop : (kvs.reverse.take (m + 1)).dropLast = kvs.reverse.take m := by
          rw [List.dropLast_eq_take, hlen, List.take_take]
          congr 1
          omega
        rw [hdrop, Prod.mk.eta]
    · rw [if_neg hcap]
      show ((kv.1, kv.2) :: kvs.reverse.take cap) = (kv :: kvs.reverse).take cap
      simp only [List.length_cons, List.length_take, List.length_reverse] at hcap
      have hlt : kvs.length < cap := by omega
      cases cap with
      | zero => omega
      | succ m =>
        rw [List.take_succ_cons,
          List.take_of_length_le (by rw [List.length_reverse]; omega),
          List.take_of_length_le (by rw [List.length_reverse]; omega), Prod.mk.eta]

/-- Claim C8: the tag-name cache is created with capacity 1000 in both
`RedisConn::new` implementations; `put` and `get` preserve
`size ≤ capacity`; inserting `capacity + 1` pairwise-distinct keys into
a fresh cache leaves exactly the most-recently-used 1000 keys
retrievable - the first (least-recently-used) key is evicted, every
later key yields its value, and unknown keys miss; and a `get` on a
present key promotes it to the most-recently-used position. -/
theorem tag_name_cache_lru_contract :
    (∀ cfg : Redis, (RedisConn.new cfg).tag_name_cache.capacity = 1000
        ∧ (MockRedisConn.new cfg).tag_name_cache.capacity = 1000)
    ∧ (∀ (c : LruCache Int String) (k : Int) (v : String),
        c.size ≤ c.capacity → (c.put k v).size ≤ c.capacity)
    ∧ (∀ (c : LruCache Int String) (k : Int),
        c.size ≤ c.capacity → ((c.get k).2).size ≤ c.capacity)
    ∧ (∀ (k0 : Int) (v0 : String) (rest : List (Int × String)),
        (((k0, v0) :: rest).map Prod.fst).Nodup → rest.length = 1000 →
        ((fillCache (LruCache.new 1000) ((k0, v0) :: rest)).get k0).1 = none
          ∧ (∀ kv ∈ rest,
              ((fillCache (LruCache.new 1000) ((k0, v0) :: rest)).get kv.1).1 = some kv.2)
          ∧ (∀ k : Int, k ∉ ((k0, v0) :: rest).map Prod.fst →
              ((fillCache (LruCache.new 1000) ((k0, v0) :: rest)).get k).1 = none))
    ∧ (∀ (c : LruCache Int String) (k : Int) (v : String),
        c.keysNodup → (k, v) ∈ c.entries →
        (c.get k).1 = some v ∧ ((c.get k).2).entries.head? = some (k, v)) := by
  refine ⟨fun cfg => ⟨rfl, rfl⟩, put_size_le, get_size_le, ?_, get_of_mem_nodup⟩
  intro k0 v0 rest hnd hlen
  have hent : (fillCache (LruCache.new 1000) ((k0, v0) :: rest)).entries
      = rest.reverse := by
    rw [fill_entries _ hnd, List.reverse_cons,
      List.take_append_of_le_length (by rw [List.length_reverse]; omega),
      List.take_of_length_le (by rw [List.length_reverse]; omega)]
  rw [List.map_cons, List.nodup_cons] at hnd
  have hkeys : (fillCache (LruCache.new 1000) ((k0, v0) :: rest)).entries.map Prod.fst
      = (rest.map Prod.fst).reverse := by
    rw [hent, List.map_reverse]
  refine ⟨?_, ?_, ?_⟩
  · apply get_none_of_not_mem
    rw [hkeys]
    intro hmem
    exact hnd.1 (List.mem_reverse.mp hmem)
  · intro kv hkv
    have hm : (kv.1, kv.2) ∈ (fillCache (LruCache.new 1000) ((k0, v0) :: rest)).entries := by
      rw [hent, Prod.mk.eta]
      exact List.mem_reverse.mpr hkv
    exact (get_of_mem_nodup _ kv.1 kv.2
      (by rw [LruCache.keysNodup, hkeys]; exact List.nodup_reverse.mpr hnd.2) hm).1
  · intro k hk
    apply get_none_of_not_mem
    rw [hkeys]
    intro hmem
    exact hk (by
      rw [List.map_cons]
      exact List.mem_cons_of_mem _ (List.mem_reverse.mp hmem))

theorem tag_name_cache_lru_contract_witness :
    ((LruCache.new 1000 : LruCache Int String).put 5 "x").size ≤ 1000
      ∧ ((fillCache (LruCache.new 1000) ((0, "v") :: (List.range 1000).map
            (fun n : Nat => ((n : Int) + 1, "v")))).get 0).1 = none
      ∧ ((fillCache (LruCache.new 1000) ((0, "v") :: (List.range 1000).map
            (fun n : Nat => ((n : Int) + 1, "v")))).get 1).1 = some "v"
      ∧ ((⟨2, [(1, "a"), (2, "b")]⟩ : LruCache Int String).get 2).1 = some "b" := by
  have h := tag_name_cache_lru_contract
  have hinj : Function.Injective (fun n : Nat => (n : Int) + 1) := by
    intro a b hab
    simp only at hab
    omega
  have hnd : (((0, "v") :: (List.range 1000).map (fun n : Nat => ((n : Int) + 1, "v"))).map
      Prod.fst).Nodup := by
    rw [List.map_cons, List.nodup_cons, List.map_map]
    have hcomp : (Prod.fst ∘ fun n : Nat => (((n : Int) + 1, "v") : Int × String))
        = fun n : Nat => (n : Int) + 1 := rfl
    rw [hcomp]
    constructor
    · intro hmem
      rw [List.mem_map] at hmem
      obtain ⟨n, _, hn⟩ := hmem
      omega
    · exact (List.nodup_range 1000).map hinj
  have hlen : ((List.range 1000).map (fun n : Nat => ((n : Int) + 1, "v"))).length = 1000 := by
    simp
  have h4 := h.2.2.2.1 0 "v" _ hnd hlen
  refine ⟨h.2.1 _ 5 "x" (by norm_num [LruCache.new, LruCache.size]), h4.1, ?_, ?_⟩
  · have hm : ((1 : Int), "v") ∈ (List.range 1000).map (fun n : Nat => ((n : Int) + 1, "v")) := by
      rw [List.mem_map]
      exact ⟨0, List.mem_range.mpr (by norm_num), by norm_num⟩
    exact h4.2.1 (1, "v") hm
  · exact (h.2.2.2.2 ⟨2, [(1, "a"), (2, "b")]⟩ 2 "b"
      (by show (([(1, "a"), (2, "b")] : List (Int × String)).map Prod.fst).Nodup; decide)
      (by decide)).1

end Flodgatt
